import Mathlib

/-!
Shallow embedding of `serpent.py`, an interactive serial console.

Conventions of the embedding:
* Python `bytes` values are `List Nat` (each element one byte);
* Python `str` values are `List Char`;
* fallible Python code (operations that can raise) returns `Except`/`Option`;
* the constant names follow the source where Lean allows it.
-/

/-- Source: `BACKSPACE = 127`. -/
def BACKSPACE : Nat := 127

/-- Byte value of the line terminator `b'\n'`. -/
def LF : Nat := 10

/-- Source: `data.decode("ascii", errors="ignore")` — bytes below 128 decode to
the corresponding character, all other bytes are dropped. -/
def decode_ascii_ignore (bs : List Nat) : List Char :=
  bs.filterMap (fun b => if b < 128 then some (Char.ofNat b) else none)

/-- Source: `__default_text_input_filter` (serpent.py lines 192-203):
`while b'\n' in data:` take the segment before the first terminator, decode it
permissively, append it to `lines`, and continue past the terminator; the final
`data` (without terminator) is returned as the remainder. -/
def default_text_input_filter (data : List Nat) : List (List Char) × List Nat :=
  if h : LF ∈ data then
    let pos := data.indexOf LF
    let line := decode_ascii_ignore (data.take pos)
    let r := default_text_input_filter (data.drop (pos + 1))
    (line :: r.1, r.2)
  else
    ([], data)
termination_by data.length
decreasing_by
  simp_wf
  have hlt : data.indexOf LF < data.length := List.indexOf_lt_length.mpr h
  omega

/-- Source: `bytes.hex()` digit table — lowercase hexadecimal digit of a value
below 16. -/
def hex_digit (n : Nat) : Char :=
  if n < 10 then Char.ofNat (48 + n) else Char.ofNat (87 + n)

/-- Source: `data.hex()` — two lowercase hexadecimal digits per byte. -/
def bytes_hex (data : List Nat) : List Char :=
  data.flatMap (fun b => [hex_digit (b / 16), hex_digit (b % 16)])

/-- Source: `__default_binary_input_filter` (serpent.py lines 206-207):
`return [data.hex(), bytes()]`.  Note that the first component of the returned
pair is a single string (the hex text), not a list of strings, although the
function is declared to return `tuple[list[str], bytes]`. -/
def default_binary_input_filter (data : List Nat) : List Char × List Nat :=
  (bytes_hex data, [])

/-- The display lines the reader loop actually emits in binary mode: the
`for line in lines` loop in `__read_serial` iterates over the string returned
by `__default_binary_input_filter`, so each character of the hex text is
forwarded as its own one-character display line. -/
def binary_emitted_lines (data : List Nat) : List (List Char) :=
  (default_binary_input_filter data).1.map (fun c => [c])

/-- Source: `str.encode("ascii")` — strict ASCII encoding; raises (here:
`none`) when any character is not ASCII. -/
def encode_ascii (s : List Char) : Option (List Nat) :=
  if s.all (fun c => c.toNat < 128) then some (s.map Char.toNat) else none

/-- Source: `__default_output_filter` (serpent.py lines 210-211):
`return (user_input + '\n').encode("ascii")`. -/
def default_output_filter (user_input : List Char) : Option (List Nat) :=
  encode_ascii (user_input ++ [Char.ofNat LF])

/-- Source: `str.startswith(pre)` — `startswith s pre = true` iff `s` begins
with `pre`. -/
def startswith : List Char → List Char → Bool
  | _, [] => true
  | [], _ :: _ => false
  | c :: cs, p :: ps => c = p && startswith cs ps

/-- Source: `str.isprintable()` restricted to one ASCII character: true
exactly for byte values 32..126. -/
def isprintable (b : Nat) : Bool :=
  32 ≤ b && b ≤ 126

/-- The mutable state of a `Prompt` object (serpent.py lines 25-93): the echo
flag, the editable line `__prompt`, the FIFO `__output_queue` (front = next
line to leave the queue) and the submission history `__history` (oldest
first). -/
structure PromptState where
  echo : Bool
  prompt : List Char
  output_queue : List (List Char)
  history : List (List Char)
deriving DecidableEq

/-- Source: `Prompt.__autocomplete` (serpent.py lines 90-93): iterate `i` from
the most recent history entry down to the oldest; whenever `history[i]` starts
with the *current* value of `self.__prompt`, overwrite `self.__prompt` with
`history[i]`.  The running value is threaded through the scan, so later
(older) entries are compared against the already-rewritten line. -/
def autocomplete (history : List (List Char)) (prompt : List Char) : List Char :=
  history.reverse.foldl (fun p h => if startswith h p then h else p) prompt

/-- Source: the byte-dispatch part of `Prompt.paint` (serpent.py lines 51-70).
The argument `c` is the result of `sys.stdin.buffer.read(1)` (`none` when no
byte is pending).  Returns the updated state and `line_read`; `.error ()`
models the uncaught `UnicodeDecodeError` from `str(c, "ascii")` on a byte
above 127. -/
def paintKey (st : PromptState) (c : Option Nat) :
    Except Unit (PromptState × Option (List Char)) :=
  match c with
  | none => .ok (st, none)
  | some b =>
    if b = BACKSPACE ∧ 1 ≤ st.prompt.length then
      .ok ({ st with prompt := st.prompt.dropLast }, none)
    else if b = LF then
      .ok ({ st with
              output_queue :=
                if st.echo then st.output_queue ++ [('>' :: ' ' :: st.prompt)]
                else st.output_queue,
              history := st.history ++ [st.prompt],
              prompt := [] },
            some st.prompt)
    else if b = 9 then
      .ok ({ st with prompt := autocomplete st.history st.prompt }, none)
    else if b < 128 then
      if isprintable b then
        .ok ({ st with prompt := st.prompt ++ [Char.ofNat b] }, none)
      else
        .ok (st, none)
    else
      .error ()

/-- Source: `Prompt.paint` (serpent.py lines 45-83): dispatch on the pending
byte, then pop and print at most one queued output line, then return
`line_read`.  The middle component is the output line printed this cycle. -/
def paint (st : PromptState) (c : Option Nat) :
    Except Unit (PromptState × Option (List Char) × Option (List Char)) :=
  match paintKey st c with
  | .error e => .error e
  | .ok (st', line_read) =>
    match st'.output_queue with
    | [] => .ok (st', none, line_read)
    | l :: rest => .ok ({ st' with output_queue := rest }, some l, line_read)

/-- Source: `Prompt.print` (serpent.py lines 86-87): enqueue a display line. -/
def prompt_print (st : PromptState) (line : List Char) : PromptState :=
  { st with output_queue := st.output_queue ++ [line] }

/-- One cycle's worth of input to the reader loop: either `read_all` delivers
some bytes and the filter runs without raising, or the read or the filter
raises. -/
inductive CycleInput
  | bytes (bs : List Nat)
  | raise
deriving DecidableEq

/-- The state owned by the reader thread: the carried-over `buffer`, the lines
forwarded to the prompt so far, and the `__stop_event` flag. -/
structure ReaderState where
  buffer : List Nat
  emitted : List (List Char)
  stop_event : Bool
deriving DecidableEq

/-- Source: `Serpent.__read_serial` (serpent.py lines 135-148), run on a trace
of cycle inputs: on a successful read, concatenate with the buffer, run the
input filter, forward each produced line and carry the remainder; on the first
raised exception, set the stop event and leave the loop (the bare `except`
swallows the exception, so the function simply returns). -/
def read_serial (filter : List Nat → List (List Char) × List Nat) :
    List CycleInput → ReaderState → ReaderState
  | [], st => st
  | .bytes bs :: rest, st =>
    let r := filter (st.buffer ++ bs)
    read_serial filter rest
      { st with buffer := r.2, emitted := st.emitted ++ r.1 }
  | .raise :: _, st => { st with stop_event := true }

/-- Source: the submission branch of `Serpent.run` (serpent.py lines 117-122):
`if user_input:` is Python truthiness, so `None` and the empty string are both
skipped; otherwise the output filter runs and, when its result is truthy
(non-`None`, non-empty), the bytes are written.  Returns whether the output
filter was invoked and the bytes written to the transport, if any. -/
def run_cycle (output_filter : List Char → Option (List Nat))
    (user_input : Option (List Char)) : Bool × Option (List Nat) :=
  match user_input with
  | none => (false, none)
  | some line =>
    if line = [] then (false, none)
    else
      match output_filter line with
      | none => (true, none)
      | some cmd => if cmd = [] then (true, none) else (true, some cmd)

/-- Modelled from the spec: the terminator-delimited segments of a byte
sequence — each segment is the run of bytes before one terminator; bytes after
the last terminator belong to no segment. -/
def terminatedSegments : List Nat → List (List Nat)
  | [] => []
  | b :: rest =>
    if b = LF then [] :: terminatedSegments rest
    else
      match terminatedSegments rest with
      | [] => []
      | s :: ss => (b :: s) :: ss

/-- Modelled from the spec: the trailing segment after the last terminator
(the whole sequence when it has no terminator). -/
def trailingSegment : List Nat → List Nat
  | [] => []
  | b :: rest => if LF ∈ b :: rest then trailingSegment rest else b :: rest

/-- Modelled from the claim's words: "the oldest History entry whose text
starts with the current line's text" — scanning oldest-first, the first entry
that starts with the line. -/
def oldestPrefixMatch (history : List (List Char)) (prompt : List Char) :
    Option (List Char) :=
  history.find? (fun h => startswith h prompt)

lemma dtif_of_not_mem {data : List Nat} (h : LF ∉ data) :
    default_text_input_filter data = ([], data) := by
  rw [default_text_input_filter]
  simp [h]

lemma dtif_of_mem {data : List Nat} (h : LF ∈ data) :
    default_text_input_filter data =
      (decode_ascii_ignore (data.take (data.indexOf LF)) ::
         (default_text_input_filter (data.drop (data.indexOf LF + 1))).1,
       (default_text_input_filter (data.drop (data.indexOf LF + 1))).2) := by
  rw [default_text_input_filter]
  simp [h]

lemma terminatedSegments_of_not_mem {data : List Nat} (h : LF ∉ data) :
    terminatedSegments data = [] := by
  induction data with
  | nil => rfl
  | cons b rest ih =>
    have hb : b ≠ LF := fun hbe => h (hbe ▸ List.mem_cons_self b rest)
    have hr : LF ∉ rest := fun hm => h (List.mem_cons_of_mem b hm)
    simp [terminatedSegments, hb, ih hr]

lemma trailingSegment_of_not_mem {data : List Nat} (h : LF ∉ data) :
    trailingSegment data = data := by
  cases data with
  | nil => rfl
  | cons b rest => simp [trailingSegment, h]

lemma terminatedSegments_split {data : List Nat} (h : LF ∈ data) :
    terminatedSegments data =
      data.take (data.indexOf LF) ::
        terminatedSegments (data.drop (data.indexOf LF + 1)) := by
  induction data with
  | nil => exact absurd h (List.not_mem_nil LF)
  | cons b rest ih =>
    by_cases hb : b = LF
    · subst hb
      simp [terminatedSegments, List.indexOf_cons_self]
    · have hr : LF ∈ rest := (List.mem_cons.mp h).resolve_left (fun he => hb he.symm)
      have hidx : (b :: rest).indexOf LF = (rest.indexOf LF) + 1 :=
        List.indexOf_cons_ne rest hb
      rw [hidx]
      simp only [terminatedSegments, hb, if_false, List.take_succ_cons,
        List.drop_succ_cons]
      rw [ih hr]

lemma trailingSegment_split {data : List Nat} (h : LF ∈ data) :
    trailingSegment data =
      trailingSegment (data.drop (data.indexOf LF + 1)) := by
  induction data with
  | nil => exact absurd h (List.not_mem_nil LF)
  | cons b rest ih =>
    by_cases hb : b = LF
    · subst hb
      simp [trailingSegment, List.indexOf_cons_self]
    · have hr : LF ∈ rest := (List.mem_cons.mp h).resolve_left (fun he => hb he.symm)
      have hidx : (b :: rest).indexOf LF = (rest.indexOf LF) + 1 :=
        List.indexOf_cons_ne rest hb
      rw [hidx]
      simp only [trailingSegment, h, if_true, List.drop_succ_cons]
      exact ih hr

/-- The text input filter computes exactly: the decoded terminator-delimited
segments, and the trailing segment as the remainder. -/
theorem dtif_eq (data : List Nat) :
    default_text_input_filter data =
      ((terminatedSegments data).map decode_ascii_ignore,
       trailingSegment data) := by
  by_cases h : LF ∈ data
  · rw [dtif_of_mem h, terminatedSegments_split h, trailingSegment_split h,
      List.map_cons, dtif_eq (data.drop (data.indexOf LF + 1))]
  · rw [dtif_of_not_mem h, terminatedSegments_of_not_mem h,
      trailingSegment_of_not_mem h]
    rfl
termination_by data.length
decreasing_by
  simp_wf
  have hlt : data.indexOf LF < data.length := List.indexOf_lt_length.mpr h
  omega

lemma LF_not_mem_trailingSegment (data : List Nat) :
    LF ∉ trailingSegment data := by
  induction data with
  | nil => exact List.not_mem_nil LF
  | cons b rest ih =>
    by_cases h : LF ∈ b :: rest
    · simpa [trailingSegment, h] using ih
    · simp [trailingSegment, h]

lemma terminatedSegments_cons_lf (rest : List Nat) :
    terminatedSegments (LF :: rest) = [] :: terminatedSegments rest := by
  simp [terminatedSegments]

lemma terminatedSegments_cons_ne {x : Nat} (rest : List Nat) (hx : x ≠ LF) :
    terminatedSegments (x :: rest) =
      match terminatedSegments rest with
      | [] => []
      | s :: ss => (x :: s) :: ss := by
  simp [terminatedSegments, hx]

lemma trailingSegment_cons_mem {x : Nat} {rest : List Nat}
    (h : LF ∈ x :: rest) :
    trailingSegment (x :: rest) = trailingSegment rest := by
  simp [trailingSegment, h]

lemma terminatedSegments_append (a b : List Nat) :
    terminatedSegments (a ++ b) =
      terminatedSegments a ++ terminatedSegments (trailingSegment a ++ b) := by
  induction a with
  | nil => simp [trailingSegment, terminatedSegments]
  | cons x a ih =>
    by_cases hx : x = LF
    · subst hx
      have hmem : LF ∈ LF :: a := List.mem_cons_self LF a
      rw [List.cons_append, terminatedSegments_cons_lf,
        terminatedSegments_cons_lf, trailingSegment_cons_mem hmem, ih]
      rfl
    · by_cases hm : LF ∈ a
      · have hmem : LF ∈ x :: a := List.mem_cons_of_mem x hm
        obtain hs := terminatedSegments_split hm
        rw [List.cons_append, terminatedSegments_cons_ne _ hx,
          terminatedSegments_cons_ne _ hx, trailingSegment_cons_mem hmem,
          ih, hs]
        rfl
      · have hmem : LF ∉ x :: a := by
          intro hc
          rcases List.mem_cons.mp hc with he | he
          · exact hx he.symm
          · exact hm he
        rw [terminatedSegments_of_not_mem hmem,
          trailingSegment_of_not_mem hmem]
        simp

lemma trailingSegment_append (a b : List Nat) :
    trailingSegment (a ++ b) =
      trailingSegment (trailingSegment a ++ b) := by
  induction a with
  | nil => simp [trailingSegment]
  | cons x a ih =>
    by_cases hx : x = LF
    · subst hx
      have hmem : LF ∈ LF :: a := List.mem_cons_self LF a
      have hmem2 : LF ∈ LF :: (a ++ b) := List.mem_cons_self LF (a ++ b)
      rw [List.cons_append, trailingSegment_cons_mem hmem2,
        trailingSegment_cons_mem hmem]
      exact ih
    · by_cases hm : LF ∈ a
      · have hmem : LF ∈ x :: a := List.mem_cons_of_mem x hm
        have hmem2 : LF ∈ x :: (a ++ b) :=
          List.mem_cons_of_mem x (List.mem_append.mpr (Or.inl hm))
        rw [List.cons_append, trailingSegment_cons_mem hmem2,
          trailingSegment_cons_mem hmem]
        exact ih
      · have hmem : LF ∉ x :: a := by
          intro hc
          rcases List.mem_cons.mp hc with he | he
          · exact hx he.symm
          · exact hm he
        rw [trailingSegment_of_not_mem hmem]

/-- Running the reader loop with the text filter over any trace of successful
reads accumulates exactly the decoded segments of all bytes seen so far and
carries the trailing segment in the buffer. -/
lemma read_serial_text (chunks : List (List Nat)) (st : ReaderState)
    (h : LF ∉ st.buffer) :
    read_serial default_text_input_filter (chunks.map CycleInput.bytes) st =
      { buffer := trailingSegment (st.buffer ++ chunks.flatten),
        emitted := st.emitted ++
          (terminatedSegments (st.buffer ++ chunks.flatten)).map
            decode_ascii_ignore,
        stop_event := st.stop_event } := by
  induction chunks generalizing st with
  | nil =>
    simp only [List.map_nil, read_serial, List.flatten_nil, List.append_nil]
    rw [trailingSegment_of_not_mem h, terminatedSegments_of_not_mem h]
    simp
  | cons c cs ih =>
    simp only [List.map_cons, read_serial, dtif_eq]
    rw [ih _ (LF_not_mem_trailingSegment _)]
    simp only [List.flatten_cons]
    rw [← trailingSegment_append, ← List.append_assoc]
    congr 1
    rw [terminatedSegments_append (st.buffer ++ c), List.map_append,
      List.append_assoc]

lemma startswith_refl (s : List Char) : startswith s s = true := by
  induction s with
  | nil => rfl
  | cons c cs ih => simp [startswith, ih]

lemma startswith_trans {a b c : List Char} (h1 : startswith b a = true)
    (h2 : startswith c b = true) : startswith c a = true := by
  induction a generalizing b c with
  | nil => cases c <;> rfl
  | cons x xs ih =>
    cases b with
    | nil => simp [startswith] at h1
    | cons y ys =>
      cases c with
      | nil => simp [startswith] at h2
      | cons z zs =>
        simp only [startswith, Bool.and_eq_true, decide_eq_true_eq] at h1 h2 ⊢
        exact ⟨h2.1.trans h1.1, ih h1.2 h2.2⟩

lemma foldl_complete_startswith (l : List (List Char)) (p : List Char) :
    startswith (l.foldl (fun p h => if startswith h p then h else p) p) p
      = true := by
  induction l generalizing p with
  | nil => exact startswith_refl p
  | cons h t ih =>
    simp only [List.foldl_cons]
    by_cases hc : startswith h p = true
    · rw [if_pos hc]
      exact startswith_trans hc (ih h)
    · rw [if_neg hc]
      exact ih p

lemma foldl_complete_mem (l : List (List Char)) (p : List Char) :
    l.foldl (fun p h => if startswith h p then h else p) p = p ∨
      l.foldl (fun p h => if startswith h p then h else p) p ∈ l := by
  induction l generalizing p with
  | nil => exact Or.inl rfl
  | cons h t ih =>
    simp only [List.foldl_cons]
    by_cases hc : startswith h p = true
    · rw [if_pos hc]
      rcases ih h with he | hm
      · exact Or.inr (by rw [he]; exact List.mem_cons_self h t)
      · exact Or.inr (List.mem_cons_of_mem h hm)
    · rw [if_neg hc]
      rcases ih p with he | hm
      · exact Or.inl he
      · exact Or.inr (List.mem_cons_of_mem h hm)

lemma foldl_complete_no_match (l : List (List Char)) (p : List Char)
    (h : ∀ x ∈ l, startswith x p = false) :
    l.foldl (fun p h => if startswith h p then h else p) p = p := by
  induction l with
  | nil => rfl
  | cons x t ih =>
    have hx : startswith x p = false := h x (List.mem_cons_self x t)
    simp only [List.foldl_cons, hx, Bool.false_eq_true, if_false]
    exact ih (fun y hy => h y (List.mem_cons_of_mem x hy))

lemma foldl_complete_find (l : List (List Char)) (p e : List Char)
    (h : l.find? (fun x => startswith x p) = some e) :
    startswith (l.foldl (fun p h => if startswith h p then h else p) p) e
      = true := by
  induction l generalizing p with
  | nil => simp [List.find?] at h
  | cons x t ih =>
    by_cases hc : startswith x p = true
    · have hfind : (x :: t).find? (fun y => startswith y p) = some x := by
        simp [List.find?, hc]
      rw [hfind] at h
      injection h with he
      subst he
      simp only [List.foldl_cons, if_pos hc]
      exact foldl_complete_startswith t x
    · have hcf : startswith x p = false := Bool.eq_false_iff.mpr hc
      have hfind : (x :: t).find? (fun y => startswith y p) =
          t.find? (fun y => startswith y p) := by
        simp [List.find?, hcf]
      rw [hfind] at h
      simp only [List.foldl_cons, hcf, Bool.false_eq_true, if_false]
      exact ih p h

lemma terminatedSegments_append_lf {data : List Nat} (h : LF ∉ data) :
    terminatedSegments (data ++ [LF]) = [data] := by
  induction data with
  | nil => simp [terminatedSegments]
  | cons b rest ih =>
    have hb : b ≠ LF := fun hbe => h (hbe ▸ List.mem_cons_self b rest)
    have hr : LF ∉ rest := fun hm => h (List.mem_cons_of_mem b hm)
    rw [List.cons_append, terminatedSegments_cons_ne _ hb, ih hr]

lemma trailingSegment_append_lf {data : List Nat} (h : LF ∉ data) :
    trailingSegment (data ++ [LF]) = [] := by
  induction data with
  | nil => simp [trailingSegment]
  | cons b rest ih =>
    have hr : LF ∉ rest := fun hm => h (List.mem_cons_of_mem b hm)
    have hmem : LF ∈ b :: (rest ++ [LF]) :=
      List.mem_cons_of_mem b (List.mem_append.mpr (Or.inr (List.mem_singleton.mpr rfl)))
    rw [List.cons_append, trailingSegment_cons_mem hmem, ih hr]

/-- C1: for every sequence of transport read chunks fed through the default
text input filter with the carry-over remainder threaded between calls (the
`__read_serial` loop), the emitted lines are exactly the decoded
terminator-delimited segments of the chunks' concatenation, in order,
regardless of how the bytes are split across the chunks. -/
theorem C1_text_filter_chunking (chunks : List (List Nat)) :
    (read_serial default_text_input_filter (chunks.map CycleInput.bytes)
        { buffer := [], emitted := [], stop_event := false }).emitted =
      (terminatedSegments chunks.flatten).map decode_ascii_ignore := by
  rw [read_serial_text chunks _ (List.not_mem_nil LF)]
  simp

/-- C2: a byte sequence without a line terminator filters to no lines and a
remainder equal to the full input, and feeding that remainder back with a
terminator appended yields exactly one line, the original sequence decoded. -/
theorem C2_no_terminator_carry (data : List Nat) (h : LF ∉ data) :
    default_text_input_filter data = ([], data) ∧
    default_text_input_filter (data ++ [LF]) =
      ([decode_ascii_ignore data], []) := by
  refine ⟨dtif_of_not_mem h, ?_⟩
  rw [dtif_eq, terminatedSegments_append_lf h, trailingSegment_append_lf h]
  rfl

/-- Witness for C2 at the concrete input `b"hi"`. -/
theorem C2_no_terminator_carry_witness :
    LF ∉ [104, 105] ∧
    (default_text_input_filter [104, 105] = ([], [104, 105]) ∧
     default_text_input_filter ([104, 105] ++ [LF]) =
       ([decode_ascii_ignore [104, 105]], [])) :=
  ⟨by decide, C2_no_terminator_carry [104, 105] (by decide)⟩

/-- C3 counterexample: with history `["ab", "ac"]` (oldest first) and current
line `"a"`, the oldest history entry starting with `"a"` is `"ab"`, but the
code's completion yields `"ac"` — after the scan's first (most recent) match
overwrites the line, the older entry `"ab"` no longer matches.  The claim's
"oldest matching entry wins" description is therefore false on the code. -/
theorem C3_autocomplete_counterexample :
    oldestPrefixMatch [['a','b'], ['a','c']] ['a'] = some ['a','b'] ∧
    autocomplete [['a','b'], ['a','c']] ['a'] = ['a','c'] ∧
    (['a','c'] : List Char) ≠ ['a','b'] := by decide

/-- C3 amended: Tab completion scans History from most recent to oldest and
each matching entry overwrites the running line, so subsequent (older) entries
are compared against the replacement.  Consequently: when no entry starts with
the line it is unchanged; the result always starts with the original line; the
result is the unchanged line or some history entry; and the most recent entry
starting with the original line is a prefix of the result. -/
theorem C3_autocomplete_amended (history : List (List Char))
    (prompt : List Char) :
    ((∀ h ∈ history, startswith h prompt = false) →
        autocomplete history prompt = prompt) ∧
    startswith (autocomplete history prompt) prompt = true ∧
    (autocomplete history prompt = prompt ∨
        autocomplete history prompt ∈ history) ∧
    (∀ e, history.reverse.find? (fun h => startswith h prompt) = some e →
        startswith (autocomplete history prompt) e = true) := by
  simp only [autocomplete]
  refine ⟨?_, ?_, ?_, ?_⟩
  · intro h
    exact foldl_complete_no_match _ _ (fun x hx => h x (List.mem_reverse.mp hx))
  · exact foldl_complete_startswith _ _
  · rcases foldl_complete_mem history.reverse prompt with he | hm
    · exact Or.inl he
    · exact Or.inr (List.mem_reverse.mp hm)
  · intro e he
    exact foldl_complete_find _ _ _ he

/-- Witness for C3's amended theorem: no-match leaves the line unchanged. -/
theorem C3_autocomplete_amended_witness :
    autocomplete [['x','y']] ['a'] = ['a'] :=
  (C3_autocomplete_amended [['x','y']] ['a']).1 (by decide)

/-- C4 counterexample: byte `0x80` is not backspace, line-feed or tab and
fails to decode as ASCII, yet `paint` does not ignore it — `str(c, "ascii")`
raises an uncaught `UnicodeDecodeError`, so an error escapes `refresh`. -/
theorem C4_decode_failure_raises :
    paintKey { echo := false, prompt := [], output_queue := [], history := [] }
      (some 128) = .error () := rfl

/-- C4 amended: a byte that is not backspace, line-feed or tab and decodes as
ASCII (value below 128) but is non-printable is ignored — line unchanged, no
error, nothing returned; a byte of 128 or above instead raises a decode error
out of `refresh`. -/
theorem C4_nonprintable_ignored_amended (st : PromptState) (b : Nat)
    (hbs : b ≠ BACKSPACE) (hlf : b ≠ LF) (htab : b ≠ 9) :
    (b < 128 → isprintable b = false → paintKey st (some b) = .ok (st, none)) ∧
    (128 ≤ b → paintKey st (some b) = .error ()) := by
  constructor
  · intro hlt hnp
    simp [paintKey, hbs, hlf, htab, hlt, hnp]
  · intro hge
    have hnlt : ¬ b < 128 := by omega
    simp [paintKey, hbs, hlf, htab, hnlt]

/-- Witness for C4's amended theorem at the non-printable ASCII byte 7. -/
theorem C4_nonprintable_ignored_amended_witness :
    paintKey { echo := false, prompt := [], output_queue := [], history := [] }
      (some 7) =
      .ok ({ echo := false, prompt := [], output_queue := [],
              history := [] }, none) :=
  (C4_nonprintable_ignored_amended
    { echo := false, prompt := [], output_queue := [], history := [] } 7
    (by decide) (by decide) (by decide)).1 (by decide) (by decide)

/-- C5: feeding bytes `0xDE 0xAD` through the binary input filter does give
the hex text `"dead"` and an empty remainder, but the hex text sits in the
lines position as a single string rather than a one-element list of lines, so
the reader loop iterates over its characters and emits four one-character
display lines instead of the single line `"dead"` the claim (and the
function's own `tuple[list[str], bytes]` annotation) require. -/
theorem C5_binary_filter_emits_chars :
    default_binary_input_filter [222, 173] = (['d','e','a','d'], []) ∧
    binary_emitted_lines [222, 173] = [['d'], ['e'], ['a'], ['d']] ∧
    binary_emitted_lines [222, 173] ≠ [['d','e','a','d']] := by decide

/-- C6: whatever exception occurs first in the reader loop (modelled as the
first `raise` in the cycle trace), the reader sets the stop event, processes
nothing after that cycle (the trailing trace is irrelevant — no retry), and
returns normally, so nothing propagates outward except the flag. -/
theorem C6_reader_failure_terminal
    (filter : List Nat → List (List Char) × List Nat)
    (p s : List CycleInput) (st : ReaderState)
    (hp : CycleInput.raise ∉ p) :
    (read_serial filter (p ++ CycleInput.raise :: s) st).stop_event = true ∧
    read_serial filter (p ++ CycleInput.raise :: s) st =
      read_serial filter (p ++ [CycleInput.raise]) st := by
  induction p generalizing st with
  | nil => exact ⟨rfl, rfl⟩
  | cons i q ih =>
    cases i with
    | raise => exact absurd (List.mem_cons_self _ _) hp
    | bytes bs =>
      have hq : CycleInput.raise ∉ q := fun hm => hp (List.mem_cons_of_mem _ hm)
      simp only [List.cons_append, read_serial]
      exact ih _ hq

/-- Witness for C6: one good read, then a raise, then a further read that is
never processed. -/
theorem C6_reader_failure_terminal_witness :
    CycleInput.raise ∉ [CycleInput.bytes [97]] ∧
    (read_serial (fun d => ([], d))
      ([CycleInput.bytes [97]] ++ CycleInput.raise :: [CycleInput.bytes [98]])
      { buffer := [], emitted := [], stop_event := false }).stop_event = true :=
  ⟨by decide,
   (C6_reader_failure_terminal (fun d => ([], d)) [CycleInput.bytes [97]]
     [CycleInput.bytes [98]]
     { buffer := [], emitted := [], stop_event := false } (by decide)).1⟩

/-- C7: for every submitted text (texts built by the editor contain only
ASCII printable characters, hence the hypothesis), the default output filter
returns the text with a line-terminator byte appended, encoded as bytes. -/
theorem C7_output_filter_appends_terminator (s : List Char)
    (h : ∀ c ∈ s, c.toNat < 128) :
    default_output_filter s = some (s.map Char.toNat ++ [LF]) := by
  have hall : (s ++ [Char.ofNat LF]).all (fun c => c.toNat < 128) = true := by
    rw [List.all_eq_true]
    intro c hc
    rcases List.mem_append.mp hc with h1 | h1
    · simpa using h c h1
    · rw [List.mem_singleton.mp h1]
      decide
  simp only [default_output_filter, encode_ascii, hall, if_true,
    List.map_append]
  rfl

/-- Witness for C7: submitting `"ping"` yields the ASCII bytes of
`"ping\n"`. -/
theorem C7_output_filter_witness :
    (∀ c ∈ (['p','i','n','g'] : List Char), c.toNat < 128) ∧
    default_output_filter ['p','i','n','g'] =
      some [112, 105, 110, 103, 10] :=
  ⟨by decide,
   (C7_output_filter_appends_terminator ['p','i','n','g'] (by decide)).trans
     (by decide)⟩

/-- C8: on a line-feed the current line is always appended to History (also
when empty) as exactly one new entry at the end; any other byte leaves History
untouched (so does a cycle without input, and so does enqueueing output), so
History grows only on submission and in submission order. -/
theorem C8_history_append_only (st : PromptState) (c : Nat)
    (line : List Char) :
    paintKey st (some LF) =
      .ok ({ st with
              output_queue :=
                if st.echo then st.output_queue ++ [('>' :: ' ' :: st.prompt)]
                else st.output_queue,
              history := st.history ++ [st.prompt],
              prompt := [] },
            some st.prompt) ∧
    (c ≠ LF → ∀ st' r, paintKey st (some c) = .ok (st', r) →
        st'.history = st.history) ∧
    paintKey st none = .ok (st, none) ∧
    (prompt_print st line).history = st.history := by
  refine ⟨?_, ?_, rfl, rfl⟩
  · simp [paintKey, LF, BACKSPACE]
  · intro hc st' r hok
    simp only [paintKey] at hok
    split_ifs at hok with h1 h2 h3 h4 <;>
      (injection hok with h'
       injection h' with hst hr
       subst hst
       rfl)

/-- Witness for C8: submitting the line `"hi"` appends it to History. -/
theorem C8_history_append_only_witness :
    paintKey { echo := false, prompt := ['h','i'], output_queue := [],
               history := [] } (some LF) =
      .ok ({ echo := false, prompt := [], output_queue := [],
             history := [['h','i']] }, some ['h','i']) :=
  (C8_history_append_only
    { echo := false, prompt := ['h','i'], output_queue := [], history := [] }
    97 ['x']).1

/-- C9: backspace on an empty line leaves the line empty without error (the
byte falls through to the ignore branch), and backspace on a non-empty line
removes exactly the last character. -/
theorem C9_backspace_safe (st : PromptState) :
    (st.prompt = [] → paintKey st (some BACKSPACE) = .ok (st, none)) ∧
    (∀ l c, st.prompt = l ++ [c] →
        paintKey st (some BACKSPACE) =
          .ok ({ st with prompt := l }, none)) := by
  constructor
  · intro h
    simp [paintKey, BACKSPACE, LF, h, isprintable]
  · intro l c h
    simp [paintKey, BACKSPACE, h, List.dropLast_concat]

/-- Witness for C9: backspace on the empty line and on `"ab"`. -/
theorem C9_backspace_safe_witness :
    paintKey { echo := false, prompt := [], output_queue := [], history := [] }
      (some BACKSPACE) =
      .ok ({ echo := false, prompt := [], output_queue := [],
             history := [] }, none) ∧
    paintKey { echo := false, prompt := ['a','b'], output_queue := [],
               history := [] } (some BACKSPACE) =
      .ok ({ echo := false, prompt := ['a'], output_queue := [],
             history := [] }, none) :=
  ⟨(C9_backspace_safe
      { echo := false, prompt := [], output_queue := [], history := [] }).1
      rfl,
   (C9_backspace_safe
      { echo := false, prompt := ['a','b'], output_queue := [],
        history := [] }).2 ['a'] 'b' rfl⟩

/-- C10: submitting an empty line appends it to History and returns it, but
the bridge cycle treats the empty string as falsy: the output filter is not
invoked (the cycle's outcome is the same for every filter, with the invoked
flag false) and no bytes are written to the transport. -/
theorem C10_empty_submission_no_write
    (f : List Char → Option (List Nat)) (st : PromptState)
    (h : st.prompt = []) :
    paintKey st (some LF) =
      .ok ({ st with
              output_queue :=
                if st.echo then st.output_queue ++ [['>', ' ']]
                else st.output_queue,
              history := st.history ++ [[]],
              prompt := [] },
            some []) ∧
    run_cycle f (some []) = (false, none) ∧
    run_cycle f none = (false, none) := by
  refine ⟨?_, rfl, rfl⟩
  simp [paintKey, LF, BACKSPACE, h]

/-- Witness for C10 with the default output filter. -/
theorem C10_empty_submission_no_write_witness :
    run_cycle default_output_filter (some []) = (false, none) :=
  (C10_empty_submission_no_write default_output_filter
    { echo := false, prompt := [], output_queue := [], history := [] }
    rfl).2.1
